import Mathlib

/-!
Verification of the documentation catalog and CLI rendering pipeline of the
effect-solutions repository (src/unnamed/part_004, `src/cli.ts`).

The pure renderer core is embedded shallowly:
* `jsTrim`, `splitWs` model JavaScript `String.prototype.trim` and
  `text.split(/\s+/)` (ASCII whitespace, which is what the catalog uses);
* `wrapText` embeds the greedy word-wrap from part_004 lines 47-75;
* `colorizeCodeReferences` embeds the chained global regex substitutions of
  part_004 lines 22-33, with the picocolors formatters (an external
  dependency) modelled as plain ANSI open/close wrapping with colors enabled;
* `renderDocs` embeds part_004 lines 97-123, with the thrown `Error`s turned
  into a typed `Except` error, one constructor per throw site, carrying the
  data interpolated into the message.

The doc catalog itself (`docs-manifest`, imported by part_004 but not part of
the sources here) is modelled from the spec: an ordered list of documents with
slug/title/description/body/draft fields, with the lookup table derived from
the same list.  All renderer theorems are stated for an arbitrary catalog.
-/

namespace EffectSolutions

/-! ### JavaScript string primitives -/

/-- JavaScript `String.prototype.trim` on the character list:
drop whitespace from the front, then from the back. -/
def trimChars (cs : List Char) : List Char :=
  ((cs.dropWhile Char.isWhitespace).reverse.dropWhile Char.isWhitespace).reverse

/-- JavaScript `s.trim()`. -/
def jsTrim (s : String) : String :=
  String.mk (trimChars s.data)

/-- State-machine core of JavaScript `text.split(/\s+/)`: `inRun` records
whether we are inside a maximal whitespace run (whose characters are all
skipped), `acc` holds the current piece reversed.  A piece is emitted at each
run start and at the end of input, so leading and trailing whitespace produce
empty edge pieces exactly as the JavaScript split does. -/
def splitWsAux : Bool → List Char → List Char → List (List Char)
  | _, acc, [] => [acc.reverse]
  | inRun, acc, c :: cs =>
    if c.isWhitespace then
      if inRun then splitWsAux true [] cs
      else acc.reverse :: splitWsAux true [] cs
    else splitWsAux false (c :: acc) cs

/-- JavaScript `text.split(/\s+/)` as a list of strings. -/
def splitWs (text : String) : List String :=
  (splitWsAux false [] text.data).map (fun l => String.mk l)

/-- The whitespace-separated words of `text` (the nonempty pieces of the
split; JavaScript's split keeps empty edge pieces, which are not words). -/
def wordsOf (text : String) : List String :=
  (splitWs text).filter (fun w => w ≠ "")

/-- Joining lines/words with single spaces. -/
def joinSpaced : List String → String
  | [] => ""
  | [x] => x
  | x :: y :: ys => x ++ " " ++ joinSpaced (y :: ys)

/-- Predicate: `text` does not end in a whitespace character. -/
def noTrailingWs (text : String) : Bool :=
  match text.data.getLast? with
  | some c => !c.isWhitespace
  | none => true

/-! ### Word wrap (part_004, `wrapText`, lines 47-75) -/

/-- The word loop of `wrapText`: `current` is the line being accumulated.
Mirrors the source: an empty current takes the word (the `continue` branch);
otherwise the word is appended when `current.length + 1 + word.length <=
maxWidth` and flushed to a new line when not. -/
def wrapAux (maxWidth : Nat) : String → List String → List String
  | current, [] => if current.length > 0 then [current] else []
  | current, w :: ws =>
    if current.length = 0 then wrapAux maxWidth w ws
    else if current.length + 1 + w.length ≤ maxWidth then
      wrapAux maxWidth (current ++ " " ++ w) ws
    else current :: wrapAux maxWidth (w) ws

/-- Embedding of `wrapText` from part_004: blank text or a non-positive width is passed
through as the single line `[text]`; otherwise the split words are greedily
packed (widths are natural numbers here; the callers clamp the width to at
least 20, and every claim assumes a positive width). -/
def wrapText (text : String) (maxWidth : Nat) : List String :=
  if jsTrim text = "" ∨ maxWidth ≤ 0 then [text]
  else wrapAux maxWidth "" (splitWs text)

/-! ### Helper lemmas about the string primitives -/

theorem mk_eq_empty_iff (l : List Char) : String.mk l = "" ↔ l = [] :=
  String.ext_iff

@[simp] theorem space_length : (" " : String).length = 1 := rfl

theorem mem_dropWhile_of_neg {p : Char → Bool} {c : Char} :
    ∀ {l : List Char}, p c = false → c ∈ l → c ∈ l.dropWhile p := by
  intro l hp hc
  induction l with
  | nil => cases hc
  | cons a l ih =>
    by_cases ha : p a = true
    · rw [List.dropWhile_cons_of_pos ha]
      rcases List.mem_cons.mp hc with rfl | hc
      · rw [hp] at ha; cases ha
      · exact ih hc
    · rw [List.dropWhile_cons_of_neg ha]
      exact hc

/-- A string trims to the empty string exactly when all its characters are
whitespace. -/
theorem jsTrim_eq_empty_iff (s : String) :
    jsTrim s = "" ↔ ∀ c ∈ s.data, c.isWhitespace := by
  unfold jsTrim trimChars
  rw [mk_eq_empty_iff]
  constructor
  · intro h c hc
    by_contra hw
    have h1 : c ∈ s.data.dropWhile Char.isWhitespace :=
      mem_dropWhile_of_neg (Bool.not_eq_true _ ▸ hw) hc
    have h2 : c ∈ ((s.data.dropWhile Char.isWhitespace).reverse.dropWhile
        Char.isWhitespace) :=
      mem_dropWhile_of_neg (Bool.not_eq_true _ ▸ hw) (List.mem_reverse.mpr h1)
    have h3 := List.ne_nil_of_mem (List.mem_reverse.mpr h2)
    exact h3 h
  · intro h
    have h1 : s.data.dropWhile Char.isWhitespace = [] :=
      List.dropWhile_eq_nil_iff.mpr h
    rw [h1]
    rfl

theorem splitWsAux_ne_nil : ∀ (inRun : Bool) (acc cs : List Char),
    splitWsAux inRun acc cs ≠ [] := by
  intro inRun acc cs
  induction cs generalizing inRun acc with
  | nil => simp [splitWsAux]
  | cons c cs ih =>
    unfold splitWsAux
    by_cases hw : c.isWhitespace <;> by_cases hr : inRun <;>
      simp [hw, hr, ih]

/-- On an all-whitespace input every emitted piece is empty (starting from an
empty accumulator). -/
theorem splitWsAux_all_ws : ∀ (cs : List Char) (inRun : Bool) (acc : List Char),
    (∀ c ∈ cs, c.isWhitespace) →
    ∀ p ∈ splitWsAux inRun acc cs, p = [] ∨ p = acc.reverse := by
  intro cs
  induction cs with
  | nil =>
    intro inRun acc _ p hp
    simp only [splitWsAux, List.mem_singleton] at hp
    exact Or.inr hp
  | cons c cs ih =>
    intro inRun acc hws p hp
    have hc : c.isWhitespace := hws c (List.mem_cons_self _ _)
    have hcs : ∀ c' ∈ cs, c'.isWhitespace := fun c' h => hws c' (List.mem_cons_of_mem _ h)
    unfold splitWsAux at hp
    rw [if_pos hc] at hp
    by_cases hr : inRun
    · rw [if_pos hr] at hp
      rcases ih true [] hcs p hp with h | h
      · exact Or.inl h
      · exact Or.inl h
    · rw [if_neg hr] at hp
      rcases List.mem_cons.mp hp with rfl | hp
      · exact Or.inr rfl
      · rcases ih true [] hcs p hp with h | h
        · exact Or.inl h
        · exact Or.inl h

/-- Blank text has no words. -/
theorem wordsOf_eq_nil_of_blank {text : String} (h : jsTrim text = "") :
    wordsOf text = [] := by
  have hws := (jsTrim_eq_empty_iff text).mp h
  unfold wordsOf splitWs
  rw [List.filter_eq_nil_iff]
  intro a ha
  simp only [List.mem_map] at ha
  obtain ⟨l, hl, rfl⟩ := ha
  rcases splitWsAux_all_ws text.data false [] hws l hl with rfl | rfl
  · simp
  · simp

/-- Structure of the split when the input does not end in whitespace: every
piece after the first is nonempty (the first piece is empty exactly when the
input starts with whitespace). -/
theorem splitWsAux_struct : ∀ (cs : List Char) (acc : List Char),
    cs ≠ [] → (∀ c, cs.getLast? = some c → ¬c.isWhitespace) →
    (∀ p ∈ splitWsAux true [] cs, p ≠ []) ∧
    (acc ≠ [] → ∀ p ∈ splitWsAux false acc cs, p ≠ []) ∧
    (∀ p ∈ (splitWsAux false acc cs).tail, p ≠ []) := by
  intro cs
  induction cs with
  | nil => intro acc h; cases h rfl
  | cons c cs ih =>
    intro acc _ hlast
    cases cs with
    | nil =>
      have hc : ¬c.isWhitespace := hlast c rfl
      refine ⟨?_, ?_, ?_⟩
      · intro p hp
        simp only [splitWsAux, if_neg hc] at hp
        simp only [List.mem_singleton] at hp
        subst hp; simp
      · intro hacc p hp
        simp only [splitWsAux, if_neg hc] at hp
        simp only [List.mem_singleton] at hp
        subst hp; simp [hacc]
      · intro p hp
        simp only [splitWsAux, if_neg hc] at hp
        simp at hp
    | cons c' cs' =>
      have hlast' : ∀ a, (c' :: cs').getLast? = some a → ¬a.isWhitespace := by
        intro a ha
        exact hlast a ((List.getLast?_cons_cons).symm ▸ ha)
      have ihs := fun acc => ih acc (by simp) hlast'
      by_cases hw : c.isWhitespace
      · refine ⟨?_, ?_, ?_⟩
        · intro p hp
          simp only [splitWsAux, if_pos hw, if_pos rfl] at hp
          exact (ihs []).1 p hp
        · intro hacc p hp
          simp only [splitWsAux, if_pos hw] at hp
          rw [if_neg (by simp)] at hp
          rcases List.mem_cons.mp hp with rfl | hp
          · simp [hacc]
          · exact (ihs []).1 p hp
        · intro p hp
          simp only [splitWsAux, if_pos hw] at hp
          rw [if_neg (by simp)] at hp
          simp only [List.tail_cons] at hp
          exact (ihs []).1 p hp
      · refine ⟨?_, ?_, ?_⟩
        · intro p hp
          simp only [splitWsAux, if_neg hw] at hp
          exact ((ihs [c]).2.1 (by simp)) p hp
        · intro _ p hp
          simp only [splitWsAux, if_neg hw] at hp
          exact ((ihs (c :: acc)).2.1 (by simp)) p hp
        · intro p hp
          simp only [splitWsAux, if_neg hw] at hp
          exact ((ihs (c :: acc)).2.1 (by simp)) p (List.mem_of_mem_tail hp)

/-- For nonempty text without trailing whitespace, the split is a head piece
followed by nonempty pieces. -/
theorem splitWs_struct (text : String) (h : noTrailingWs text = true)
    (hne : text.data ≠ []) :
    ∃ p qs, splitWs text = p :: qs ∧ ∀ q ∈ qs, q ≠ "" := by
  have hlast : ∀ c, text.data.getLast? = some c → ¬c.isWhitespace := by
    intro c hc
    unfold noTrailingWs at h
    rw [hc] at h
    simpa using h
  obtain ⟨-, -, htail⟩ := splitWsAux_struct text.data [] hne hlast
  unfold splitWs
  cases hsp : splitWsAux false [] text.data with
  | nil => exact absurd hsp (splitWsAux_ne_nil _ _ _)
  | cons l ls =>
    refine ⟨String.mk l, ls.map (fun l => String.mk l), by simp, ?_⟩
    intro q hq
    simp only [List.mem_map] at hq
    obtain ⟨l', hl', rfl⟩ := hq
    have : l' ≠ [] := by
      apply htail
      rw [hsp]
      simpa using hl'
    simpa [mk_eq_empty_iff] using this

/-! ### Lemmas about the wrap loop -/

theorem wrapAux_ne_nil (W : Nat) : ∀ (ws : List String) (current : String),
    current ≠ "" → wrapAux W current ws ≠ [] := by
  intro ws
  induction ws with
  | nil =>
    intro current hc
    have : current.length > 0 := by
      cases hlen : current.length with
      | zero =>
        exact absurd (by cases current with
          | mk l => simpa [mk_eq_empty_iff] using List.length_eq_zero.mp hlen) hc
      | succ n => omega
    simp [wrapAux, this]
  | cons w ws ih =>
    intro current hc
    have hlen : current.length ≠ 0 := by
      intro h0
      apply hc
      cases current with
      | mk l => simpa [mk_eq_empty_iff] using List.length_eq_zero.mp h0
    unfold wrapAux
    rw [if_neg hlen]
    by_cases hfit : current.length + 1 + w.length ≤ W
    · rw [if_pos hfit]
      apply ih
      intro habs
      have := congrArg String.length habs
      simp [String.length_append] at this
    · rw [if_neg hfit]
      simp

theorem wrapAux_length_le (W : Nat) : ∀ (ws : List String) (current : String),
    (∀ w ∈ ws, w.length ≤ W) → current.length ≤ W →
    ∀ l ∈ wrapAux W current ws, l.length ≤ W := by
  intro ws
  induction ws with
  | nil =>
    intro current _ hcur l hl
    unfold wrapAux at hl
    by_cases h0 : current.length > 0
    · rw [if_pos h0] at hl
      simp only [List.mem_singleton] at hl
      subst hl; exact hcur
    · rw [if_neg h0] at hl
      cases hl
  | cons w ws ih =>
    intro current hws hcur l hl
    have hw : w.length ≤ W := hws w (List.mem_cons_self _ _)
    have hws' : ∀ w' ∈ ws, w'.length ≤ W := fun w' h => hws w' (List.mem_cons_of_mem _ h)
    unfold wrapAux at hl
    by_cases h0 : current.length = 0
    · rw [if_pos h0] at hl
      exact ih w hws' hw l hl
    · rw [if_neg h0] at hl
      by_cases hfit : current.length + 1 + w.length ≤ W
      · rw [if_pos hfit] at hl
        refine ih _ hws' ?_ l hl
        simp [String.length_append, space_length]
        omega
      · rw [if_neg hfit] at hl
        rcases List.mem_cons.mp hl with rfl | hl
        · exact hcur
        · exact ih w hws' hw l hl

theorem joinSpaced_cons_of_ne_nil (x : String) {l : List String} (h : l ≠ []) :
    joinSpaced (x :: l) = x ++ " " ++ joinSpaced l := by
  cases l with
  | nil => cases h rfl
  | cons y ys => rfl

theorem joinSpaced_merge (a b : String) (l : List String) :
    joinSpaced ((a ++ " " ++ b) :: l) = joinSpaced (a :: b :: l) := by
  cases l with
  | nil => rfl
  | cons y ys =>
    show (a ++ " " ++ b) ++ " " ++ joinSpaced (y :: ys)
        = a ++ " " ++ (b ++ " " ++ joinSpaced (y :: ys))
    simp [String.append_assoc]

/-- Joining the produced lines with single spaces reproduces the word list,
provided no word is empty. -/
theorem wrapAux_join (W : Nat) : ∀ (ws : List String) (current : String),
    current ≠ "" → (∀ w ∈ ws, w ≠ "") →
    joinSpaced (wrapAux W current ws) = joinSpaced (current :: ws) := by
  intro ws
  induction ws with
  | nil =>
    intro current hc _
    have hpos : current.length > 0 := by
      rcases Nat.eq_zero_or_pos current.length with h0 | h
      · exact absurd (by cases current with
          | mk l => simpa [mk_eq_empty_iff] using List.length_eq_zero.mp h0) hc
      · exact h
    simp [wrapAux, hpos]
  | cons w ws ih =>
    intro current hc hws
    have hw : w ≠ "" := hws w (List.mem_cons_self _ _)
    have hws' : ∀ w' ∈ ws, w' ≠ "" := fun w' h => hws w' (List.mem_cons_of_mem _ h)
    have hlen : current.length ≠ 0 := by
      intro h0
      exact hc (by cases current with
        | mk l => simpa [mk_eq_empty_iff] using List.length_eq_zero.mp h0)
    unfold wrapAux
    rw [if_neg hlen]
    by_cases hfit : current.length + 1 + w.length ≤ W
    · rw [if_pos hfit]
      have hcur' : current ++ " " ++ w ≠ "" := by
        intro habs
        have := congrArg String.length habs
        simp [String.length_append] at this
      rw [ih _ hcur' hws', joinSpaced_merge]
    · rw [if_neg hfit]
      cases hrest : wrapAux W w ws with
      | nil => exact absurd hrest (wrapAux_ne_nil W ws w hw)
      | cons r rs =>
        rw [joinSpaced_cons_of_ne_nil current (by simp), ← hrest, ih w hw hws',
          joinSpaced_cons_of_ne_nil current (by simp)]

/-- A current line that is already longer than the width is always flushed as
a line of its own. -/
theorem wrapAux_self_mem (W : Nat) : ∀ (ws : List String) (current : String),
    W < current.length → current ∈ wrapAux W current ws := by
  intro ws
  induction ws with
  | nil =>
    intro current hlong
    simp [wrapAux, Nat.lt_of_le_of_lt (Nat.zero_le W) hlong]
  | cons w ws ih =>
    intro current hlong
    have hlen : current.length ≠ 0 := by omega
    have hfit : ¬(current.length + 1 + w.length ≤ W) := by omega
    unfold wrapAux
    rw [if_neg hlen, if_neg hfit]
    exact List.mem_cons_self _ _

/-- Every word longer than the width occurs as a line of the output. -/
theorem wrapAux_overlong_word_mem (W : Nat) :
    ∀ (ws : List String) (current w : String),
    w ∈ ws → W < w.length → w ∈ wrapAux W current ws := by
  intro ws
  induction ws with
  | nil => intro current w h; cases h
  | cons w' ws ih =>
    intro current w hw hlong
    unfold wrapAux
    by_cases h0 : current.length = 0
    · rw [if_pos h0]
      rcases List.mem_cons.mp hw with rfl | hw
      · exact wrapAux_self_mem W ws w hlong
      · exact ih w' w hw hlong
    · rw [if_neg h0]
      by_cases hfit : current.length + 1 + w'.length ≤ W
      · rw [if_pos hfit]
        rcases List.mem_cons.mp hw with rfl | hw
        · omega
        · exact ih _ w hw hlong
      · rw [if_neg hfit]
        rcases List.mem_cons.mp hw with rfl | hw
        · exact List.mem_cons_of_mem _ (wrapAux_self_mem W ws w hlong)
        · exact List.mem_cons_of_mem _ (ih w' w hw hlong)

/-- Every output line either fits in the width, or is the initial current
line, or is one of the words (so an overlong line is always a single word). -/
theorem wrapAux_mem_classify (W : Nat) :
    ∀ (ws : List String) (current l : String),
    l ∈ wrapAux W current ws → l.length ≤ W ∨ l = current ∨ l ∈ ws := by
  intro ws
  induction ws with
  | nil =>
    intro current l hl
    unfold wrapAux at hl
    by_cases h0 : current.length > 0
    · rw [if_pos h0] at hl
      simp only [List.mem_singleton] at hl
      exact Or.inr (Or.inl hl)
    · rw [if_neg h0] at hl
      cases hl
  | cons w ws ih =>
    intro current l hl
    unfold wrapAux at hl
    by_cases h0 : current.length = 0
    · rw [if_pos h0] at hl
      rcases ih w l hl with h | h | h
      · exact Or.inl h
      · exact Or.inr (Or.inr (h ▸ List.mem_cons_self _ _))
      · exact Or.inr (Or.inr (List.mem_cons_of_mem _ h))
    · rw [if_neg h0] at hl
      by_cases hfit : current.length + 1 + w.length ≤ W
      · rw [if_pos hfit] at hl
        rcases ih _ l hl with h | h | h
        · exact Or.inl h
        · refine Or.inl ?_
          rw [h]
          simp [String.length_append]
          omega
        · exact Or.inr (Or.inr (List.mem_cons_of_mem _ h))
      · rw [if_neg hfit] at hl
        rcases List.mem_cons.mp hl with rfl | hl
        · exact Or.inr (Or.inl rfl)
        · rcases ih w l hl with h | h | h
          · exact Or.inl h
          · exact Or.inr (Or.inr (h ▸ List.mem_cons_self _ _))
          · exact Or.inr (Or.inr (List.mem_cons_of_mem _ h))

/-! ### The wrap claims -/

theorem string_ne_empty_of_length_pos {s : String} (h : 0 < s.length) : s ≠ "" := by
  intro habs
  rw [habs] at h
  simp at h

theorem wordsOf_ne_empty (text : String) : ∀ w ∈ wordsOf text, w ≠ "" := by
  intro w hw
  have := List.mem_filter.mp hw
  simpa using this.2

/-- Without trailing whitespace, the only blank text is the empty string. -/
theorem eq_empty_of_blank_of_noTrailingWs {text : String}
    (htrail : noTrailingWs text = true) (hblank : jsTrim text = "") : text = "" := by
  have hws := (jsTrim_eq_empty_iff text).mp hblank
  cases text with
  | mk l =>
    cases l with
    | nil => rfl
    | cons c cs =>
      have hne : (c :: cs) ≠ [] := by simp
      have hsome : ((c :: cs).getLast?).isSome = true := List.getLast?_isSome.mpr hne
      obtain ⟨a, ha⟩ := Option.isSome_iff_exists.mp hsome
      have hmem : a ∈ c :: cs := List.mem_of_mem_getLast? ha
      have hwa : a.isWhitespace := hws a hmem
      unfold noTrailingWs at htrail
      simp only at htrail
      rw [ha] at htrail
      simp [hwa] at htrail

/-- For non-blank text without trailing whitespace, wrapping operates exactly
on the word list (the split's possible empty head piece is absorbed by the
empty initial current line). -/
theorem wrapText_eq_wrapAux_wordsOf (text : String) (W : Nat) (hW : 0 < W)
    (hnb : jsTrim text ≠ "") (htrail : noTrailingWs text = true) :
    wrapText text W = wrapAux W "" (wordsOf text) := by
  have hdata : text.data ≠ [] := by
    intro habs
    apply hnb
    have : text = "" := by
      cases text with
      | mk l => simpa [mk_eq_empty_iff] using habs
    rw [this]
    rfl
  obtain ⟨p, qs, hsp, hqs⟩ := splitWs_struct text htrail hdata
  have hfilter : qs.filter (fun w => w ≠ "") = qs :=
    List.filter_eq_self.mpr (fun a ha => by simpa using hqs a ha)
  unfold wrapText
  rw [if_neg (by push_neg; exact ⟨hnb, by omega⟩)]
  unfold wordsOf
  rw [hsp]
  by_cases hp : p = ""
  · subst hp
    have h1 : wrapAux W "" ("" :: qs) = wrapAux W "" qs := by
      simp [wrapAux]
    have h2 : List.filter (fun w => w ≠ "") ("" :: qs) = qs := by
      rw [List.filter_cons_of_neg (by simp)]
      exact hfilter
    rw [h1, h2]
  · have h2 : List.filter (fun w => w ≠ "") (p :: qs) = p :: qs := by
      rw [List.filter_cons_of_pos (by simpa using hp)]
      rw [hfilter]
    rw [h2]

/-- C4 (amended): for a positive width, words no longer than the width, and
text without trailing whitespace, every produced line fits in the width and
re-joining the lines with single spaces reproduces the whitespace-normalized
text (the words joined by single spaces).  The greedy accumulation rule is the
definition of `wrapAux`, taken verbatim from the source. -/
theorem wrapText_width_and_rejoin (text : String) (W : Nat) (hW : 0 < W)
    (hwords : ∀ w ∈ wordsOf text, w.length ≤ W)
    (htrail : noTrailingWs text = true) :
    (∀ l ∈ wrapText text W, l.length ≤ W) ∧
    joinSpaced (wrapText text W) = joinSpaced (wordsOf text) := by
  by_cases hb : jsTrim text = ""
  · have htext : text = "" := eq_empty_of_blank_of_noTrailingWs htrail hb
    subst htext
    have hwrap : wrapText "" W = [""] := by
      unfold wrapText
      rw [if_pos (Or.inl (by rfl))]
    have hwords0 : wordsOf "" = [] := wordsOf_eq_nil_of_blank (by rfl)
    rw [hwrap, hwords0]
    refine ⟨?_, rfl⟩
    intro l hl
    simp only [List.mem_singleton] at hl
    subst hl
    simp
  · rw [wrapText_eq_wrapAux_wordsOf text W hW hb htrail]
    constructor
    · exact wrapAux_length_le W (wordsOf text) "" hwords (by simp)
    · cases hwo : wordsOf text with
      | nil => simp [wrapAux]
      | cons x xs =>
        have hx : x ≠ "" := wordsOf_ne_empty text x (hwo ▸ List.mem_cons_self _ _)
        have hxs : ∀ w ∈ xs, w ≠ "" :=
          fun w hw => wordsOf_ne_empty text w (hwo ▸ List.mem_cons_of_mem _ hw)
        have h1 : wrapAux W "" (x :: xs) = wrapAux W x xs := by
          simp [wrapAux]
        rw [h1]
        exact wrapAux_join W xs x hx hxs

/-- C4 counterexample: for text with trailing whitespace the claim as stated
fails: all words of `"ab "` fit in width 3, yet the single produced line ends
in a space, so re-joining does not reproduce the normalized text `"ab"`. -/
theorem wrapText_rejoin_counterexample :
    (∀ w ∈ wordsOf "ab ", w.length ≤ 3) ∧
    wrapText "ab " 3 = ["ab "] ∧
    joinSpaced (wrapText "ab " 3) ≠ joinSpaced (wordsOf "ab ") := by
  refine ⟨by decide, by decide, by decide⟩

/-- C4 witness: concrete instance of `wrapText_width_and_rejoin` at the
spec's own scenario, description `"x y z"` at width 3. -/
theorem wrapText_width_and_rejoin_witness :
    (∀ l ∈ wrapText "x y z" 3, l.length ≤ 3) ∧
    joinSpaced (wrapText "x y z" 3) = joinSpaced (wordsOf "x y z") :=
  wrapText_width_and_rejoin "x y z" 3 (by decide) (by decide) (by decide)

/-- C7 (amended): a blank description is passed through unwrapped, as exactly
one line containing the original text unchanged (empty exactly when the
description is empty; a whitespace-only description keeps its whitespace). -/
theorem wrapText_blank_passthrough (text : String) (W : Nat)
    (h : jsTrim text = "") :
    wrapText text W = [text] ∧ (wrapText text W).length = 1 := by
  unfold wrapText
  rw [if_pos (Or.inl h)]
  exact ⟨rfl, rfl⟩

/-- C7 counterexample: the whitespace-only description `"  "` produces a
single line that is not empty (it is the original two-space string). -/
theorem wrapText_blank_counterexample :
    jsTrim "  " = "" ∧ wrapText "  " 5 = ["  "] ∧ ("  " : String) ≠ "" := by
  refine ⟨by decide, by decide, by decide⟩

/-- C7 witness: `wrapText_blank_passthrough` applied to the empty
description. -/
theorem wrapText_blank_passthrough_witness :
    wrapText "" 7 = [""] ∧ (wrapText "" 7).length = 1 :=
  wrapText_blank_passthrough "" 7 (by decide)

/-- C8: a word longer than the width appears alone, unmodified, as a line of
its own, and every overlong output line is such a word (words are never split
mid-word). -/
theorem wrapText_overlong_word (text : String) (W : Nat) (w : String)
    (hW : 0 < W) (hw : w ∈ wordsOf text) (hlong : W < w.length) :
    w ∈ wrapText text W ∧
    ∀ l ∈ wrapText text W, W < l.length → l ∈ wordsOf text := by
  have hnb : jsTrim text ≠ "" := by
    intro hb
    rw [wordsOf_eq_nil_of_blank hb] at hw
    cases hw
  have hwrap : wrapText text W = wrapAux W "" (splitWs text) := by
    unfold wrapText
    rw [if_neg (by push_neg; exact ⟨hnb, by omega⟩)]
  rw [hwrap]
  constructor
  · exact wrapAux_overlong_word_mem W (splitWs text) "" w
      (List.mem_of_mem_filter hw) hlong
  · intro l hl hlong'
    rcases wrapAux_mem_classify W (splitWs text) "" l hl with h | h | h
    · omega
    · subst h
      simp at hlong'
    · have hlne : l ≠ "" := string_ne_empty_of_length_pos (by omega)
      exact List.mem_filter.mpr ⟨h, by simpa using hlne⟩

/-- C8 witness: `"bbbbb"` exceeds width 4 in `"aa bbbbb cc"` and lands alone
on its own line. -/
theorem wrapText_overlong_word_witness :
    "bbbbb" ∈ wordsOf "aa bbbbb cc" ∧
    ("bbbbb" ∈ wrapText "aa bbbbb cc" 4 ∧
      ∀ l ∈ wrapText "aa bbbbb cc" 4, 4 < l.length → l ∈ wordsOf "aa bbbbb cc") :=
  ⟨by decide, wrapText_overlong_word "aa bbbbb cc" 4 "bbbbb" (by decide) (by decide)
    (by decide)⟩

/-! ### Inline code colorization (part_004, `colorizeCodeReferences`, lines 22-33)

The four chained global regex replacements are embedded as left-to-right
scans over the character list.  Every pattern starts at a backtick, so the
scanner attempts a parse exactly at backticks and resumes after the end of a
match, which is the semantics of JavaScript global `replace`.  The picocolors
formatters are modelled as ANSI open/close wrapping (colors enabled); the
matched spans never contain escape sequences, so the close-code-splicing
refinement of picocolors never fires on reachable inputs. -/

/-- The backtick character (kept out of the source text of this file). -/
def BT : Char := Char.ofNat 96

def ansiWrap (o c s : String) : String := o ++ s ++ c

def pcBold : String → String := ansiWrap "\x1b[1m" "\x1b[22m"
def pcGreen : String → String := ansiWrap "\x1b[32m" "\x1b[39m"
def pcCyan : String → String := ansiWrap "\x1b[36m" "\x1b[39m"
def pcDim : String → String := ansiWrap "\x1b[2m" "\x1b[22m"

/-- Composition `pc.bold(pc.green(s))`, the command formatter. -/
def pcBoldGreen (s : String) : String := pcBold (pcGreen s)

/-- Close a backtick span: the parsed body is paired with the input after the
closing backtick.  `body` is what the caller already consumed, `cs` the input
whose leading non-backtick run belongs to the span. -/
def closeSpan (body : List Char) (cs : List Char) : Option (List Char × List Char) :=
  match cs.dropWhile (fun c => c != BT) with
  | c :: rest => if c = BT then some (body ++ [BT], rest) else none
  | [] => none

/-- Matcher for the command patterns (`bunx [^BT]+` and `bun run [^BT]+`
between backticks): a fixed prefix, then at least one non-backtick character,
then the closing backtick.  `cs` is the input just after the opening
backtick; a match returns the matched text after the opening backtick
(closing backtick included) and the remaining input. -/
def pCmd (pre : List Char) (cs : List Char) : Option (List Char × List Char) :=
  if pre.isPrefixOf cs then
    let rest0 := cs.drop pre.length
    let body := rest0.takeWhile (fun c => c != BT)
    if body.isEmpty then none
    else closeSpan (pre ++ body) rest0
  else none

def EXTS : List (List Char) := [".ts".data, ".json".data, ".toml".data, ".md".data]

/-- The span content matches `[^BT]+\.(ts|json|toml|md)` exactly when it ends
in one of the dotted extensions preceded by at least one character. -/
def hasExtSuffix (body : List Char) : Bool :=
  EXTS.any (fun e => decide (e.length < body.length) && e.isSuffixOf body)

/-- Matcher for the file-reference pattern. -/
def pFile (cs : List Char) : Option (List Char × List Char) :=
  let body := cs.takeWhile (fun c => c != BT)
  if hasExtSuffix body then closeSpan body cs else none

/-- Matcher for the generic code span `[^BT]+` between backticks. -/
def pGen (cs : List Char) : Option (List Char × List Char) :=
  let body := cs.takeWhile (fun c => c != BT)
  if body.isEmpty then none else closeSpan body cs

/-- One global replacement pass, fueled for structural recursion (the fuel is
always the input length, which bounds the number of steps because matches
consume at least one character). -/
def scanAux (p : List Char → Option (List Char × List Char)) (f : String → String) :
    Nat → List Char → List Char
  | _, [] => []
  | 0, c :: cs => c :: cs
  | n + 1, c :: cs =>
    if c = BT then
      match p cs with
      | some (m, r) => (f (String.mk (c :: m))).data ++ scanAux p f n r
      | none => c :: scanAux p f n cs
    else c :: scanAux p f n cs

/-- Embedding of `text.replace(pattern, f)` with a global backtick-anchored pattern. -/
def scanSpan (p : List Char → Option (List Char × List Char)) (f : String → String)
    (cs : List Char) : List Char :=
  scanAux p f cs.length cs

/-- Embedding of `colorizeCodeReferences` from part_004: the four substitutions applied in
source order (bunx commands, bun-run commands, file references, generic code
spans). -/
def colorizeCodeReferences (text : String) : String :=
  String.mk
    (scanSpan pGen pcDim
      (scanSpan pFile pcCyan
        (scanSpan (pCmd "bun run ".data) pcBoldGreen
          (scanSpan (pCmd "bunx ".data) pcBoldGreen text.data))))

/-! ### Lemmas about the scanner -/

theorem scanAux_nil (p : List Char → Option (List Char × List Char))
    (f : String → String) : ∀ n, scanAux p f n [] = [] := by
  intro n
  cases n <;> rfl

theorem scanSpan_nil (p : List Char → Option (List Char × List Char))
    (f : String → String) : scanSpan p f [] = [] := rfl

/-- The fuel is irrelevant as long as it is at least the input length,
because every match consumes at least one character. -/
theorem scanAux_congr_fuel (p : List Char → Option (List Char × List Char))
    (f : String → String)
    (hp : ∀ cs m r, p cs = some (m, r) → r.length ≤ cs.length) :
    ∀ n m cs, cs.length ≤ n → cs.length ≤ m → scanAux p f n cs = scanAux p f m cs := by
  intro n
  induction n with
  | zero =>
    intro m cs hn _
    have : cs = [] := List.length_eq_zero.mp (Nat.le_zero.mp hn)
    subst this
    rw [scanAux_nil, scanAux_nil]
  | succ n ih =>
    intro m cs hn hm
    cases cs with
    | nil => rw [scanAux_nil, scanAux_nil]
    | cons c cs =>
      cases m with
      | zero => simp at hm
      | succ m =>
        show scanAux p f (n + 1) (c :: cs) = scanAux p f (m + 1) (c :: cs)
        simp only [scanAux]
        by_cases hc : c = BT
        · rw [if_pos hc, if_pos hc]
          cases h : p cs with
          | none =>
            simp only [List.length_cons, Nat.succ_le_succ_iff] at hn hm
            rw [ih m cs hn hm]
          | some mr =>
            obtain ⟨mt, r⟩ := mr
            simp only [List.length_cons, Nat.succ_le_succ_iff] at hn hm
            have hr := hp cs mt r h
            show (f (String.mk (c :: mt))).data ++ scanAux p f n r
                = (f (String.mk (c :: mt))).data ++ scanAux p f m r
            rw [ih m r (le_trans hr hn) (le_trans hr hm)]
        · rw [if_neg hc, if_neg hc]
          simp only [List.length_cons, Nat.succ_le_succ_iff] at hn hm
          rw [ih m cs hn hm]

theorem scanSpan_cons_pass (p : List Char → Option (List Char × List Char))
    (f : String → String) {c : Char} (cs : List Char) (hc : c ≠ BT) :
    scanSpan p f (c :: cs) = c :: scanSpan p f cs := by
  unfold scanSpan
  show scanAux p f (cs.length + 1) (c :: cs) = _
  simp only [scanAux, if_neg hc]

theorem scanSpan_nomatch (p : List Char → Option (List Char × List Char))
    (f : String → String) (cs : List Char) (h : p cs = none) :
    scanSpan p f (BT :: cs) = BT :: scanSpan p f cs := by
  unfold scanSpan
  show scanAux p f (cs.length + 1) (BT :: cs) = _
  simp only [scanAux, if_pos rfl, h, eq_self_iff_true, if_true]

theorem scanSpan_match (p : List Char → Option (List Char × List Char))
    (f : String → String) (cs m r : List Char)
    (hp : ∀ cs m r, p cs = some (m, r) → r.length ≤ cs.length)
    (h : p cs = some (m, r)) :
    scanSpan p f (BT :: cs) = (f (String.mk (BT :: m))).data ++ scanSpan p f r := by
  unfold scanSpan
  show scanAux p f (cs.length + 1) (BT :: cs) = _
  simp only [scanAux, if_pos rfl, h, eq_self_iff_true, if_true]
  rw [scanAux_congr_fuel p f hp cs.length r.length r (hp cs m r h) le_rfl]

theorem scanSpan_append_pass (p : List Char → Option (List Char × List Char))
    (f : String → String) (pre cs : List Char) (h : ∀ c ∈ pre, c ≠ BT) :
    scanSpan p f (pre ++ cs) = pre ++ scanSpan p f cs := by
  induction pre with
  | nil => rfl
  | cons c pre ih =>
    have hc : c ≠ BT := h c (List.mem_cons_self _ _)
    have h' : ∀ c' ∈ pre, c' ≠ BT := fun c' hc' => h c' (List.mem_cons_of_mem _ hc')
    rw [List.cons_append, scanSpan_cons_pass p f _ hc, ih h', List.cons_append]

theorem scanSpan_of_noBT (p : List Char → Option (List Char × List Char))
    (f : String → String) (cs : List Char) (h : ∀ c ∈ cs, c ≠ BT) :
    scanSpan p f cs = cs := by
  have := scanSpan_append_pass p f cs [] h
  simpa [scanSpan_nil] using this

/-! ### Lemmas about the matchers -/

theorem takeWhile_bt_append {body : List Char} (rest : List Char)
    (h : ∀ c ∈ body, c ≠ BT) :
    (body ++ BT :: rest).takeWhile (fun c => c != BT) = body := by
  induction body with
  | nil => simp [List.takeWhile_cons]
  | cons c body ih =>
    have hc : c ≠ BT := h c (List.mem_cons_self _ _)
    have h' : ∀ c' ∈ body, c' ≠ BT := fun c' hc' => h c' (List.mem_cons_of_mem _ hc')
    simp only [List.cons_append, List.takeWhile_cons]
    rw [if_pos (by simpa using hc)]
    rw [ih h']

theorem dropWhile_bt_append {body : List Char} (rest : List Char)
    (h : ∀ c ∈ body, c ≠ BT) :
    (body ++ BT :: rest).dropWhile (fun c => c != BT) = BT :: rest := by
  induction body with
  | nil => simp [List.dropWhile_cons]
  | cons c body ih =>
    have hc : c ≠ BT := h c (List.mem_cons_self _ _)
    have h' : ∀ c' ∈ body, c' ≠ BT := fun c' hc' => h c' (List.mem_cons_of_mem _ hc')
    simp only [List.cons_append, List.dropWhile_cons]
    rw [if_pos (by simpa using hc)]
    exact ih h'

theorem closeSpan_bound (b cs m r : List Char) (h : closeSpan b cs = some (m, r)) :
    r.length ≤ cs.length := by
  unfold closeSpan at h
  cases hd : cs.dropWhile (fun c => c != BT) with
  | nil => rw [hd] at h; cases h
  | cons c rest =>
    rw [hd] at h
    dsimp only at h
    by_cases hc : c = BT
    · rw [if_pos hc] at h
      have hsub : (c :: rest).Sublist cs := hd ▸ List.dropWhile_sublist _
      have := hsub.length_le
      simp only [Option.some.injEq, Prod.mk.injEq] at h
      obtain ⟨-, rfl⟩ := h
      simp at this
      omega
    · rw [if_neg hc] at h; cases h

theorem closeSpan_eval (b : List Char) {cs₁ : List Char} (rest : List Char)
    (h : ∀ c ∈ cs₁, c ≠ BT) :
    closeSpan b (cs₁ ++ BT :: rest) = some (b ++ [BT], rest) := by
  unfold closeSpan
  rw [dropWhile_bt_append rest h]
  simp

theorem closeSpan_none_noBT (b : List Char) {cs : List Char}
    (h : ∀ c ∈ cs, c ≠ BT) : closeSpan b cs = none := by
  unfold closeSpan
  have hd : cs.dropWhile (fun c => c != BT) = [] :=
    List.dropWhile_eq_nil_iff.mpr (fun x hx => by simpa using h x hx)
  rw [hd]

theorem pCmd_bound (pre : List Char) :
    ∀ cs m r, pCmd pre cs = some (m, r) → r.length ≤ cs.length := by
  intro cs m r h
  unfold pCmd at h
  by_cases hpre : pre.isPrefixOf cs
  · rw [if_pos hpre] at h
    simp only at h
    by_cases hb : ((cs.drop pre.length).takeWhile (fun c => c != BT)).isEmpty
    · rw [if_pos hb] at h; cases h
    · rw [if_neg hb] at h
      have := closeSpan_bound _ _ _ _ h
      have hdrop : (cs.drop pre.length).length ≤ cs.length :=
        (List.drop_sublist _ _).length_le
      omega
  · rw [if_neg hpre] at h; cases h

theorem pGen_bound : ∀ cs m r, pGen cs = some (m, r) → r.length ≤ cs.length := by
  intro cs m r h
  unfold pGen at h
  by_cases hb : (cs.takeWhile (fun c => c != BT)).isEmpty
  · rw [if_pos hb] at h; cases h
  · rw [if_neg hb] at h
    exact closeSpan_bound _ _ _ _ h

theorem pGen_eval {body : List Char} (rest : List Char) (hne : body ≠ [])
    (h : ∀ c ∈ body, c ≠ BT) :
    pGen (body ++ BT :: rest) = some (body ++ [BT], rest) := by
  unfold pGen
  rw [takeWhile_bt_append rest h]
  rw [if_neg (by simpa [List.isEmpty_iff] using hne)]
  exact closeSpan_eval body rest h

theorem pGen_none_noBT {cs : List Char} (h : ∀ c ∈ cs, c ≠ BT) :
    pGen cs = none := by
  unfold pGen
  by_cases hb : (cs.takeWhile (fun c => c != BT)).isEmpty
  · rw [if_pos hb]
  · rw [if_neg hb]
    exact closeSpan_none_noBT _ h

theorem pFile_none_of_no_ext {body : List Char} (rest : List Char)
    (h : ∀ c ∈ body, c ≠ BT) (hext : hasExtSuffix body = false) :
    pFile (body ++ BT :: rest) = none := by
  unfold pFile
  dsimp only
  rw [takeWhile_bt_append rest h, hext]
  simp

theorem pFile_none_noBT {cs : List Char} (h : ∀ c ∈ cs, c ≠ BT) :
    pFile cs = none := by
  unfold pFile
  by_cases hext : hasExtSuffix (cs.takeWhile (fun c => c != BT))
  · rw [if_pos hext]
    exact closeSpan_none_noBT _ h
  · rw [if_neg hext]

theorem isPrefixOf_append_self : ∀ (l₁ l₂ : List Char),
    l₁.isPrefixOf (l₁ ++ l₂) = true := by
  intro l₁ l₂
  induction l₁ with
  | nil => simp [List.isPrefixOf]
  | cons c l ih => simp [List.isPrefixOf, ih]

theorem pCmd_eval (pre : List Char) {w : List Char} (rest : List Char)
    (hw : w ≠ []) (hwbt : ∀ c ∈ w, c ≠ BT) :
    pCmd pre (pre ++ (w ++ BT :: rest)) = some (pre ++ w ++ [BT], rest) := by
  unfold pCmd
  rw [if_pos (isPrefixOf_append_self _ _)]
  simp only [List.drop_left]
  rw [takeWhile_bt_append rest hwbt]
  rw [if_neg (by simpa [List.isEmpty_iff] using hw)]
  rw [closeSpan_eval (pre ++ w) rest hwbt]

theorem pCmd_none_noBT (pre : List Char) {cs : List Char}
    (h : ∀ c ∈ cs, c ≠ BT) : pCmd pre cs = none := by
  unfold pCmd
  by_cases hpre : pre.isPrefixOf cs
  · rw [if_pos hpre]
    simp only
    have hdropbt : ∀ c ∈ cs.drop pre.length, c ≠ BT :=
      fun c hc => h c ((List.drop_sublist _ _).mem hc)
    by_cases hb : ((cs.drop pre.length).takeWhile (fun c => c != BT)).isEmpty
    · rw [if_pos hb]
    · rw [if_neg hb]
      exact closeSpan_none_noBT _ hdropbt
  · rw [if_neg hpre]

/-- The bun-run prefix never matches a span that starts with `bunx `. -/
theorem bunrun_never_matches_bunx (l : List Char) :
    ("bun run ".data).isPrefixOf ("bunx ".data ++ l) = false := by
  have h1 : "bun run ".data = ['b', 'u', 'n', ' ', 'r', 'u', 'n', ' '] := rfl
  have h2 : "bunx ".data = ['b', 'u', 'n', 'x', ' '] := rfl
  rw [h1, h2]
  simp [List.isPrefixOf]

theorem pCmd_none_of_prefix_fail (pre cs : List Char)
    (h : pre.isPrefixOf cs = false) : pCmd pre cs = none := by
  unfold pCmd
  rw [h]
  simp

/-- A one-character backtick string, used to build concrete span inputs. -/
def btStr : String := String.mk [BT]

/-- C5 (amended): colorization is textual substitution over backtick spans in
the fixed precedence order (bunx commands, bun-run commands, file-extension
spans, generic spans), each applied globally; but because every substitution
keeps the backtick delimiters in place, later substitutions re-match spans
already rewritten by earlier ones.  Concretely, a command span whose content
does not end in a file extension is wrapped by the command substitution and
then wrapped again by the generic substitution. -/
theorem colorize_cmd_span_rewrapped (w : String)
    (hne : w.data ≠ [])
    (hbt : ∀ c ∈ w.data, c ≠ BT)
    (hext : hasExtSuffix ("bunx ".data ++ w.data) = false) :
    colorizeCodeReferences (btStr ++ "bunx " ++ w ++ btStr) =
      pcBold (pcGreen (pcDim (btStr ++ "bunx " ++ w ++ btStr))) := by
  set S := btStr ++ "bunx " ++ w ++ btStr with hS
  have hA : ∀ c ∈ "\x1b[1m".data, c ≠ BT := by decide
  have hB : ∀ c ∈ "\x1b[32m".data, c ≠ BT := by decide
  have hC : ∀ c ∈ ("\x1b[39m".data ++ "\x1b[22m".data), c ≠ BT := by decide
  have hP : ∀ c ∈ "bunx ".data, c ≠ BT := by decide
  have hPW : ∀ c ∈ ("bunx ".data ++ w.data), c ≠ BT := by
    intro c hc
    rcases List.mem_append.mp hc with h | h
    · exact hP c h
    · exact hbt c h
  have hbtd : btStr.data = [BT] := rfl
  have hSdata : S.data = BT :: ("bunx ".data ++ (w.data ++ [BT])) := by
    rw [hS]
    simp [String.data_append, hbtd]
  have hmkS : String.mk (BT :: (("bunx ".data ++ w.data) ++ [BT])) = S := by
    rw [String.ext_iff]
    rw [hSdata]
    simp
  have hBG : (pcBoldGreen S).data
      = "\x1b[1m".data ++ ("\x1b[32m".data ++ (BT :: ("bunx ".data ++
          (w.data ++ (BT :: ("\x1b[39m".data ++ "\x1b[22m".data)))))) := by
    simp [pcBoldGreen, pcBold, pcGreen, ansiWrap, String.data_append, hSdata]
  have h1 : scanSpan (pCmd "bunx ".data) pcBoldGreen S.data = (pcBoldGreen S).data := by
    rw [hSdata]
    rw [scanSpan_match _ _ _ _ _ (pCmd_bound "bunx ".data)
      (pCmd_eval "bunx ".data [] hne hbt)]
    rw [scanSpan_nil, List.append_nil, hmkS]
  have h2 : scanSpan (pCmd "bun run ".data) pcBoldGreen (pcBoldGreen S).data
      = (pcBoldGreen S).data := by
    rw [hBG]
    rw [scanSpan_append_pass _ _ _ _ hA, scanSpan_append_pass _ _ _ _ hB]
    rw [scanSpan_nomatch _ _ _
      (pCmd_none_of_prefix_fail _ _ (bunrun_never_matches_bunx _))]
    rw [scanSpan_append_pass _ _ _ _ hP, scanSpan_append_pass _ _ _ _ hbt]
    rw [scanSpan_nomatch _ _ _ (pCmd_none_noBT _ hC)]
    rw [scanSpan_of_noBT _ _ _ hC]
  have h3 : scanSpan pFile pcCyan (pcBoldGreen S).data = (pcBoldGreen S).data := by
    rw [hBG]
    rw [scanSpan_append_pass _ _ _ _ hA, scanSpan_append_pass _ _ _ _ hB]
    have hfile1 : pFile ("bunx ".data ++
        (w.data ++ (BT :: ("\x1b[39m".data ++ "\x1b[22m".data)))) = none := by
      rw [← List.append_assoc]
      exact pFile_none_of_no_ext _ hPW hext
    rw [scanSpan_nomatch _ _ _ hfile1]
    rw [scanSpan_append_pass _ _ _ _ hP, scanSpan_append_pass _ _ _ _ hbt]
    rw [scanSpan_nomatch _ _ _ (pFile_none_noBT hC)]
    rw [scanSpan_of_noBT _ _ _ hC]
  have h4 : scanSpan pGen pcDim (pcBoldGreen S).data
      = "\x1b[1m".data ++ ("\x1b[32m".data ++ ((pcDim S).data ++
          ("\x1b[39m".data ++ "\x1b[22m".data))) := by
    rw [hBG]
    rw [scanSpan_append_pass _ _ _ _ hA, scanSpan_append_pass _ _ _ _ hB]
    have hgen : pGen ("bunx ".data ++
        (w.data ++ (BT :: ("\x1b[39m".data ++ "\x1b[22m".data))))
        = some (("bunx ".data ++ w.data) ++ [BT],
            "\x1b[39m".data ++ "\x1b[22m".data) := by
      rw [← List.append_assoc]
      exact pGen_eval _ (by simp) hPW
    rw [scanSpan_match _ _ _ _ _ pGen_bound hgen]
    rw [scanSpan_of_noBT _ _ _ hC, hmkS]
  show String.mk (scanSpan pGen pcDim (scanSpan pFile pcCyan
    (scanSpan (pCmd "bun run ".data) pcBoldGreen
      (scanSpan (pCmd "bunx ".data) pcBoldGreen S.data)))) = _
  rw [h1, h2, h3, h4]
  rw [String.ext_iff]
  simp [pcBold, pcGreen, ansiWrap, String.data_append]

/-- C5 counterexample: under the claim, the later generic substitution would
never touch the command span already rewritten by the first substitution, so
`BT bunx a BT` would colorize to exactly the bold-green wrapping of the span;
instead the code additionally wraps the span in the dim codes. -/
theorem colorize_overlap_counterexample :
    colorizeCodeReferences (btStr ++ "bunx a" ++ btStr) ≠
      pcBold (pcGreen (btStr ++ "bunx a" ++ btStr)) ∧
    colorizeCodeReferences (btStr ++ "bunx a" ++ btStr) =
      pcBold (pcGreen (pcDim (btStr ++ "bunx a" ++ btStr))) := by
  refine ⟨by decide, by decide⟩

/-- C5 witness: `colorize_cmd_span_rewrapped` at the concrete span content
`a`. -/
theorem colorize_cmd_span_rewrapped_witness :
    ("a" : String).data ≠ [] ∧
    colorizeCodeReferences (btStr ++ "bunx " ++ "a" ++ btStr) =
      pcBold (pcGreen (pcDim (btStr ++ "bunx " ++ "a" ++ btStr))) :=
  ⟨by decide, colorize_cmd_span_rewrapped "a" (by decide) (by decide) (by decide)⟩

/-! ### Doc catalog and `renderDocs` (part_004, lines 97-123)

Modelled from the spec: the catalog (`docs-manifest`, not among the sources)
is an ordered list of documents — slug, title, description, body, draft —
with unique slugs, and its lookup table maps a slug to the document of the
same list.  `renderDocs` itself is embedded from the source, parameterized by
the catalog list. -/

/-- Modelled from the spec: a catalog document (identifier, title, optional
short description, body text, draft flag). -/
structure Doc where
  slug : String
  title : String
  description : String
  body : String
  draft : Bool
deriving DecidableEq, Repr

/-- Modelled from the spec: `DOC_LOOKUP`, the lookup table keyed by slug,
derived from the same ordered document list `docs` (exact slug match). -/
def docLookup (docs : List Doc) (s : String) : Option Doc :=
  docs.find? (fun d => d.slug == s)

/-- Embedding of `isDocSlug` from part_004 line 19: membership in the lookup table. -/
def isDocSlug (docs : List Doc) (s : String) : Bool :=
  (docLookup docs s).isSome

/-- The three throw sites of `renderDocs`, as a typed error, each constructor
carrying the data interpolated into the thrown message. -/
inductive RenderError where
  | noSlugs : RenderError
  | unknownSlugs (slugs : List String) : RenderError
  | internalNotFound (slug : String) : RenderError
deriving DecidableEq, Repr

/-- The message of each thrown `Error`. -/
def RenderError.message : RenderError → String
  | .noSlugs => "Please provide at least one doc slug."
  | .unknownSlugs slugs => "Unknown doc slug(s): " ++ String.intercalate ", " slugs
  | .internalNotFound slug => "Internal error: doc " ++ slug ++ " not found in lookup"

/-- Embedding of `Array.from(new Set(slugs))`: first-occurrence-order deduplication, with
`seen` the set contents so far. -/
def dedupFirstAux (seen : List String) : List String → List String
  | [] => []
  | x :: xs =>
    if x ∈ seen then dedupFirstAux seen xs
    else x :: dedupFirstAux (x :: seen) xs

def dedupFirst (l : List String) : List String := dedupFirstAux [] l

/-- Index of the first occurrence of `a` in `l` (length of `l` when absent),
used to state first-occurrence order. -/
def firstIdx : List String → String → Nat
  | [], _ => 0
  | x :: xs, a => if x = a then 0 else firstIdx xs a + 1

/-- The separator between rendered blocks. -/
def blockSep : String := "\n\n" ++ pcDim "---" ++ "\n\n"

/-- One rendered block: colored title line with the slug in parentheses, then
the colorized trimmed body, with empty segments dropped
(`[title, "", body].filter(Boolean).join("\n")`). -/
def renderBlock (doc : Doc) : String :=
  let title := pcBold (pcCyan ("## " ++ doc.title)) ++ " " ++
    pcDim ("(" ++ doc.slug ++ ")")
  let body := colorizeCodeReferences (jsTrim doc.body)
  String.intercalate "\n" (([title, "", body]).filter (fun s => s ≠ ""))

/-- The block rendered for a slug, with lookup (used to state what a
successful render returns; a validated slug always resolves). -/
def renderSlug (docs : List Doc) (s : String) : String :=
  (docLookup docs s).elim "" renderBlock

/-- The mapping step over the unique slugs: rendering throws the internal
error at the first slug missing from the lookup. -/
def renderBlocks (docs : List Doc) : List String → Except RenderError (List String)
  | [] => .ok []
  | s :: ss =>
    match docLookup docs s with
    | some d => (renderBlocks docs ss).map (fun bs => renderBlock d :: bs)
    | none => .error (.internalNotFound s)

/-- Embedding of `renderDocs` from part_004 lines 97-123: trim the request and drop blank
entries, fail when nothing remains, fail when any slug is unknown (listing all
of them), deduplicate preserving first occurrence, render each unique slug and
join the blocks with the separator, with a trailing newline. -/
def renderDocs (docs : List Doc) (requested : List String) :
    Except RenderError String :=
  let slugs := (requested.map jsTrim).filter (fun s => s ≠ "")
  if slugs.length = 0 then .error .noSlugs
  else
    let unknown := slugs.filter (fun s => !(isDocSlug docs s))
    if 0 < unknown.length then .error (.unknownSlugs unknown)
    else
      (renderBlocks docs (dedupFirst slugs)).map
        (fun blocks => String.intercalate blockSep blocks ++ "\n")

/-- Modelled from the spec's concrete scenario (section 8): catalog with a
document `a` titled `A` described `x y z` and a document `b` titled `B` with
an empty description. -/
def docsExample : List Doc :=
  [{ slug := "a", title := "A", description := "x y z",
     body := "Use Effect.", draft := false },
   { slug := "b", title := "B", description := "",
     body := "See docs.", draft := false }]

/-- The slugs of every known non-draft document, in catalog order (what the
documented `--all` flag is supposed to expand to). -/
def nonDraftSlugs (docs : List Doc) : List String :=
  (docs.filter (fun d => !d.draft)).map (fun d => d.slug)

/-! ### Lemmas about deduplication and rendering -/

theorem dedupFirstAux_mem : ∀ (l : List String) (seen : List String) (s : String),
    s ∈ dedupFirstAux seen l ↔ (s ∈ l ∧ s ∉ seen) := by
  intro l
  induction l with
  | nil => intro seen s; simp [dedupFirstAux]
  | cons x xs ih =>
    intro seen s
    unfold dedupFirstAux
    by_cases hx : x ∈ seen
    · rw [if_pos hx, ih]
      constructor
      · rintro ⟨h1, h2⟩
        exact ⟨List.mem_cons_of_mem _ h1, h2⟩
      · rintro ⟨h1, h2⟩
        rcases List.mem_cons.mp h1 with rfl | h1
        · exact absurd hx h2
        · exact ⟨h1, h2⟩
    · rw [if_neg hx]
      constructor
      · intro hmem
        rcases List.mem_cons.mp hmem with rfl | hmem
        · exact ⟨List.mem_cons_self _ _, hx⟩
        · obtain ⟨h1, h2⟩ := (ih (x :: seen) s).mp hmem
          refine ⟨List.mem_cons_of_mem _ h1, fun hs => h2 (List.mem_cons_of_mem _ hs)⟩
      · rintro ⟨h1, h2⟩
        rcases List.mem_cons.mp h1 with rfl | h1
        · exact List.mem_cons_self _ _
        · by_cases hsx : s = x
          · subst hsx; exact List.mem_cons_self _ _
          · refine List.mem_cons_of_mem _ ((ih (x :: seen) s).mpr ⟨h1, ?_⟩)
            intro habs
            rcases List.mem_cons.mp habs with h | h
            · exact hsx h
            · exact h2 h

theorem dedupFirstAux_nodup : ∀ (l : List String) (seen : List String),
    (dedupFirstAux seen l).Nodup := by
  intro l
  induction l with
  | nil => intro seen; simp [dedupFirstAux]
  | cons x xs ih =>
    intro seen
    unfold dedupFirstAux
    by_cases hx : x ∈ seen
    · rw [if_pos hx]; exact ih seen
    · rw [if_neg hx]
      rw [List.nodup_cons]
      refine ⟨?_, ih (x :: seen)⟩
      intro habs
      exact ((dedupFirstAux_mem xs (x :: seen) x).mp habs).2 (List.mem_cons_self _ _)

theorem firstIdx_cons_ne {x a : String} (xs : List String) (h : a ≠ x) :
    firstIdx (x :: xs) a = firstIdx xs a + 1 := by
  show (if x = a then 0 else firstIdx xs a + 1) = firstIdx xs a + 1
  rw [if_neg (fun hh => h hh.symm)]

theorem dedupFirstAux_pairwise_firstIdx : ∀ (l : List String) (seen : List String),
    (dedupFirstAux seen l).Pairwise (fun a b => firstIdx l a < firstIdx l b) := by
  intro l
  induction l with
  | nil => intro seen; simp [dedupFirstAux]
  | cons x xs ih =>
    intro seen
    unfold dedupFirstAux
    by_cases hx : x ∈ seen
    · rw [if_pos hx]
      refine (ih seen).imp_of_mem ?_
      intro a b ha hb hab
      have ha' := (dedupFirstAux_mem xs seen a).mp ha
      have hb' := (dedupFirstAux_mem xs seen b).mp hb
      have hax : a ≠ x := fun habs => ha'.2 (habs ▸ hx)
      have hbx : b ≠ x := fun habs => hb'.2 (habs ▸ hx)
      rw [firstIdx_cons_ne xs hax, firstIdx_cons_ne xs hbx]
      omega
    · rw [if_neg hx]
      rw [List.pairwise_cons]
      constructor
      · intro b hb
        have hb' := (dedupFirstAux_mem xs (x :: seen) b).mp hb
        have hbx : b ≠ x := fun habs => hb'.2 (habs ▸ List.mem_cons_self _ _)
        rw [firstIdx_cons_ne xs hbx]
        unfold firstIdx
        rw [if_pos rfl]
        omega
      · refine (ih (x :: seen)).imp_of_mem ?_
        intro a b ha hb hab
        have ha' := (dedupFirstAux_mem xs (x :: seen) a).mp ha
        have hb' := (dedupFirstAux_mem xs (x :: seen) b).mp hb
        have hax : a ≠ x := fun habs => ha'.2 (habs ▸ List.mem_cons_self _ _)
        have hbx : b ≠ x := fun habs => hb'.2 (habs ▸ List.mem_cons_self _ _)
        rw [firstIdx_cons_ne xs hax, firstIdx_cons_ne xs hbx]
        omega

theorem dedupFirst_mem (l : List String) (s : String) :
    s ∈ dedupFirst l ↔ s ∈ l := by
  unfold dedupFirst
  rw [dedupFirstAux_mem]
  simp

theorem dedupFirst_nodup (l : List String) : (dedupFirst l).Nodup :=
  dedupFirstAux_nodup l []

theorem dedupFirst_pairwise (l : List String) :
    (dedupFirst l).Pairwise (fun a b => firstIdx l a < firstIdx l b) :=
  dedupFirstAux_pairwise_firstIdx l []

/-- Rendering the blocks succeeds, producing one block per slug in order,
whenever every slug is in the lookup table. -/
theorem renderBlocks_ok (docs : List Doc) : ∀ (l : List String),
    (∀ s ∈ l, isDocSlug docs s = true) →
    renderBlocks docs l = .ok (l.map (renderSlug docs)) := by
  intro l
  induction l with
  | nil => intro _; rfl
  | cons s ss ih =>
    intro h
    have hs : isDocSlug docs s = true := h s (List.mem_cons_self _ _)
    have hss : ∀ s' ∈ ss, isDocSlug docs s' = true :=
      fun s' hs' => h s' (List.mem_cons_of_mem _ hs')
    unfold isDocSlug at hs
    obtain ⟨d, hd⟩ := Option.isSome_iff_exists.mp hs
    unfold renderBlocks
    rw [hd, ih hss]
    show Except.ok (renderBlock d :: ss.map (renderSlug docs)) = _
    have : renderSlug docs s = renderBlock d := by
      unfold renderSlug
      rw [hd]
      rfl
    rw [List.map_cons, this]

/-! ### The renderer claims -/

/-- C1: for a non-empty request whose entries all trim to known slugs (in a
catalog whose slugs are nonempty tokens), `renderDocs` succeeds and renders
exactly one block per unique slug — the deduplicated slug list is duplicate
free, has the same members as the trimmed request, and lists slugs in strictly
increasing order of first occurrence in the request. -/
theorem renderDocs_unique_blocks_first_order (docs : List Doc)
    (requested : List String)
    (hslug : ∀ d ∈ docs, d.slug ≠ "")
    (hreq : requested ≠ [])
    (hknown : ∀ r ∈ requested, isDocSlug docs (jsTrim r) = true) :
    renderDocs docs requested =
      .ok (String.intercalate blockSep
        ((dedupFirst (requested.map jsTrim)).map (renderSlug docs)) ++ "\n") ∧
    (dedupFirst (requested.map jsTrim)).Nodup ∧
    (∀ s, s ∈ dedupFirst (requested.map jsTrim) ↔ s ∈ requested.map jsTrim) ∧
    (dedupFirst (requested.map jsTrim)).Pairwise
      (fun a b => firstIdx (requested.map jsTrim) a
        < firstIdx (requested.map jsTrim) b) := by
  have hkn : ∀ s ∈ requested.map jsTrim, isDocSlug docs s = true := by
    intro s hs
    obtain ⟨r, hr, rfl⟩ := List.mem_map.mp hs
    exact hknown r hr
  have hne0 : ∀ s ∈ requested.map jsTrim, s ≠ "" := by
    intro s hs
    have h1 := hkn s hs
    unfold isDocSlug at h1
    obtain ⟨d, hd⟩ := Option.isSome_iff_exists.mp h1
    have hmem := List.mem_of_find?_eq_some hd
    have heq : d.slug = s := by simpa using List.find?_some hd
    exact heq ▸ hslug d hmem
  have hfil : (requested.map jsTrim).filter (fun s => s ≠ "")
      = requested.map jsTrim :=
    List.filter_eq_self.mpr (fun a ha => by simpa using hne0 a ha)
  have hlen : ¬((requested.map jsTrim).filter (fun s => s ≠ "")).length = 0 := by
    rw [hfil]
    simp only [List.length_eq_zero, List.map_eq_nil_iff]
    exact hreq
  have hunk : ((requested.map jsTrim).filter (fun s => s ≠ "")).filter
      (fun s => !(isDocSlug docs s)) = [] := by
    rw [hfil, List.filter_eq_nil_iff]
    intro a ha
    simp [hkn a ha]
  refine ⟨?_, dedupFirst_nodup _, fun s => dedupFirst_mem _ s, dedupFirst_pairwise _⟩
  unfold renderDocs
  dsimp only
  rw [if_neg hlen, hunk]
  rw [if_neg (by simp)]
  rw [hfil]
  rw [renderBlocks_ok docs _ (fun s hs => hkn s ((dedupFirst_mem _ s).mp hs))]
  rfl

/-- C1 witness: the spec's scenario `show(["a","a"])` renders exactly one
block for `a`. -/
theorem renderDocs_unique_blocks_first_order_witness :
    renderDocs docsExample ["a", "a"] =
      .ok (String.intercalate blockSep
        ((dedupFirst (["a", "a"].map jsTrim)).map (renderSlug docsExample)) ++ "\n") ∧
    (dedupFirst (["a", "a"].map jsTrim)).Nodup ∧
    (∀ s, s ∈ dedupFirst (["a", "a"].map jsTrim) ↔ s ∈ ["a", "a"].map jsTrim) ∧
    (dedupFirst (["a", "a"].map jsTrim)).Pairwise
      (fun a b => firstIdx (["a", "a"].map jsTrim) a
        < firstIdx (["a", "a"].map jsTrim) b) :=
  renderDocs_unique_blocks_first_order docsExample ["a", "a"]
    (by decide) (by decide) (by decide)

/-- C2: whenever the request contains a non-blank unknown slug, `renderDocs`
fails with the unknown-slug error carrying a nonempty list naming exactly the
unknown trimmed slugs of the request (every unknown slug, no known slug), and
produces no rendered output. -/
theorem renderDocs_unknown_error (docs : List Doc) (requested : List String)
    (h : ∃ r ∈ requested, jsTrim r ≠ "" ∧ isDocSlug docs (jsTrim r) = false) :
    ∃ unk, renderDocs docs requested = .error (.unknownSlugs unk) ∧ unk ≠ [] ∧
      (∀ s, s ∈ unk ↔
        (s ∈ requested.map jsTrim ∧ s ≠ "" ∧ isDocSlug docs s = false)) := by
  obtain ⟨r, hr, hne, hunkr⟩ := h
  have hmem : jsTrim r ∈ (requested.map jsTrim).filter (fun s => s ≠ "") :=
    List.mem_filter.mpr ⟨List.mem_map.mpr ⟨r, hr, rfl⟩, by simpa using hne⟩
  have hlen : ¬((requested.map jsTrim).filter (fun s => s ≠ "")).length = 0 := by
    intro h0
    rw [List.length_eq_zero] at h0
    rw [h0] at hmem
    cases hmem
  have humem : jsTrim r ∈ ((requested.map jsTrim).filter (fun s => s ≠ "")).filter
      (fun s => !(isDocSlug docs s)) :=
    List.mem_filter.mpr ⟨hmem, by simp [hunkr]⟩
  have hpos : 0 < (((requested.map jsTrim).filter (fun s => s ≠ "")).filter
      (fun s => !(isDocSlug docs s))).length :=
    List.length_pos.mpr (List.ne_nil_of_mem humem)
  refine ⟨_, ?_, List.ne_nil_of_mem humem, ?_⟩
  · unfold renderDocs
    dsimp only
    rw [if_neg hlen, if_pos hpos]
  · intro s
    simp only [List.mem_filter, List.mem_map, Bool.not_eq_true',
      decide_eq_true_eq, and_assoc]

/-- C2 witness: the spec's example request with two known and two bogus
slugs. -/
theorem renderDocs_unknown_error_witness :
    ∃ unk, renderDocs docsExample ["a", "bogus", "b", "bogus2"] =
        .error (.unknownSlugs unk) ∧ unk ≠ [] ∧
      (∀ s, s ∈ unk ↔
        (s ∈ ["a", "bogus", "b", "bogus2"].map jsTrim ∧ s ≠ "" ∧
          isDocSlug docsExample s = false)) :=
  renderDocs_unknown_error docsExample ["a", "bogus", "b", "bogus2"]
    ⟨"bogus", by decide, by decide, by decide⟩

/-- C10: the unknown-slug list is collected by filtering the trimmed request
before deduplication: it is a sublist of the trimmed request (input order) and
contains each non-blank unknown slug once per occurrence. -/
theorem renderDocs_unknown_occurrences (docs : List Doc) (requested : List String)
    (h : ∃ r ∈ requested, jsTrim r ≠ "" ∧ isDocSlug docs (jsTrim r) = false) :
    ∃ unk, renderDocs docs requested = .error (.unknownSlugs unk) ∧
      unk.Sublist (requested.map jsTrim) ∧
      (∀ s, isDocSlug docs s = false → s ≠ "" →
        unk.count s = (requested.map jsTrim).count s) := by
  obtain ⟨r, hr, hne, hunkr⟩ := h
  have hmem : jsTrim r ∈ (requested.map jsTrim).filter (fun s => s ≠ "") :=
    List.mem_filter.mpr ⟨List.mem_map.mpr ⟨r, hr, rfl⟩, by simpa using hne⟩
  have hlen : ¬((requested.map jsTrim).filter (fun s => s ≠ "")).length = 0 := by
    intro h0
    rw [List.length_eq_zero] at h0
    rw [h0] at hmem
    cases hmem
  have humem : jsTrim r ∈ ((requested.map jsTrim).filter (fun s => s ≠ "")).filter
      (fun s => !(isDocSlug docs s)) :=
    List.mem_filter.mpr ⟨hmem, by simp [hunkr]⟩
  have hpos : 0 < (((requested.map jsTrim).filter (fun s => s ≠ "")).filter
      (fun s => !(isDocSlug docs s))).length :=
    List.length_pos.mpr (List.ne_nil_of_mem humem)
  refine ⟨((requested.map jsTrim).filter (fun s => s ≠ "")).filter
    (fun s => !(isDocSlug docs s)), ?_, ?_, ?_⟩
  · unfold renderDocs
    dsimp only
    rw [if_neg hlen, if_pos hpos]
  · exact (List.filter_sublist _).trans (List.filter_sublist _)
  · intro s hsu hsne
    rw [List.count_filter (by simp [hsu]), List.count_filter (by simpa using hsne)]

/-- C10 witness: an unknown slug requested twice is listed twice, in input
order. -/
theorem renderDocs_unknown_occurrences_witness :
    ∃ unk, renderDocs docsExample ["x", "x", "y"] =
        .error (.unknownSlugs unk) ∧
      unk.Sublist (["x", "x", "y"].map jsTrim) ∧
      (∀ s, isDocSlug docsExample s = false → s ≠ "" →
        unk.count s = (["x", "x", "y"].map jsTrim).count s) :=
  renderDocs_unknown_occurrences docsExample ["x", "x", "y"]
    ⟨"x", by decide, by decide, by decide⟩

/-- C6: a request whose entries all trim to blank fails with the no-slugs
error kind, which is a distinct constructor from the unknown-slug kind, with a
message distinct from every unknown-slug message. -/
theorem renderDocs_no_slugs_error (docs : List Doc) (requested : List String)
    (h : ∀ r ∈ requested, jsTrim r = "") :
    renderDocs docs requested = .error .noSlugs ∧
    (∀ l, RenderError.noSlugs ≠ RenderError.unknownSlugs l) ∧
    (∀ l, RenderError.noSlugs.message ≠ (RenderError.unknownSlugs l).message) := by
  refine ⟨?_, ?_, ?_⟩
  · have hfil : (requested.map jsTrim).filter (fun s => s ≠ "") = [] := by
      rw [List.filter_eq_nil_iff]
      intro a ha
      obtain ⟨r, hr, rfl⟩ := List.mem_map.mp ha
      simp [h r hr]
    unfold renderDocs
    dsimp only
    rw [hfil]
    rfl
  · intro l hl
    cases hl
  · intro l heq
    have h1 : (RenderError.noSlugs.message).data.head? = some 'P' := rfl
    have h2 : ((RenderError.unknownSlugs l).message).data.head? = some 'U' := by
      show (("Unknown doc slug(s): " ++ String.intercalate ", " l).data).head? = _
      cases hi : String.intercalate ", " l with
      | mk ld => rfl
    rw [heq, h2] at h1
    cases h1

/-- C6 witness: the spec's example `show(["", "  "])`. -/
theorem renderDocs_no_slugs_error_witness :
    renderDocs docsExample ["", "  "] = .error .noSlugs ∧
    (∀ l, RenderError.noSlugs ≠ RenderError.unknownSlugs l) ∧
    (∀ l, RenderError.noSlugs.message ≠ (RenderError.unknownSlugs l).message) :=
  renderDocs_no_slugs_error docsExample ["", "  "] (by decide)

/-- C9: the lookup table is derived from the same ordered document list, so
every slug accepted by `isDocSlug` resolves to a document of the list with
that exact slug, and the internal-error branch of `renderDocs` is unreachable
for every request. -/
theorem docLookup_sync_no_internal_error (docs : List Doc)
    (requested : List String) (s : String) :
    (isDocSlug docs s = true →
      ∃ d ∈ docs, docLookup docs s = some d ∧ d.slug = s) ∧
    renderDocs docs requested ≠ .error (.internalNotFound s) := by
  constructor
  · intro h
    unfold isDocSlug at h
    obtain ⟨d, hd⟩ := Option.isSome_iff_exists.mp h
    exact ⟨d, List.mem_of_find?_eq_some hd, hd, by simpa using List.find?_some hd⟩
  · unfold renderDocs
    dsimp only
    by_cases hlen : ((requested.map jsTrim).filter (fun s => s ≠ "")).length = 0
    · rw [if_pos hlen]
      intro habs
      cases habs
    · rw [if_neg hlen]
      by_cases hpos : 0 < (((requested.map jsTrim).filter (fun s => s ≠ "")).filter
          (fun s => !(isDocSlug docs s))).length
      · rw [if_pos hpos]
        intro habs
        cases habs
      · rw [if_neg hpos]
        have hall : ∀ s' ∈ (requested.map jsTrim).filter (fun s => s ≠ ""),
            isDocSlug docs s' = true := by
          have hn : (((requested.map jsTrim).filter (fun s => s ≠ "")).filter
              (fun s => !(isDocSlug docs s))) = [] := by
            rcases List.eq_nil_or_concat (((requested.map jsTrim).filter
              (fun s => s ≠ "")).filter (fun s => !(isDocSlug docs s))) with h | ⟨l', a, h⟩
            · exact h
            · exfalso
              apply hpos
              rw [h]
              simp
          intro s' hs'
          by_contra hs'u
          have : s' ∈ (((requested.map jsTrim).filter (fun s => s ≠ "")).filter
              (fun s => !(isDocSlug docs s))) :=
            List.mem_filter.mpr ⟨hs', by simp [Bool.not_eq_true] at hs'u ⊢; simp [hs'u]⟩
          rw [hn] at this
          cases this
        rw [renderBlocks_ok docs _
          (fun s' hs' => hall s' ((dedupFirst_mem _ s').mp hs'))]
        intro habs
        cases habs

/-- C9 witness: the sync property instantiated at the example catalog. -/
theorem docLookup_sync_no_internal_error_witness :
    isDocSlug docsExample "a" = true ∧
    (∃ d ∈ docsExample, docLookup docsExample "a" = some d ∧ d.slug = "a") ∧
    renderDocs docsExample ["a"] ≠ .error (.internalNotFound "a") :=
  ⟨by decide,
    (docLookup_sync_no_internal_error docsExample ["a"] "a").1 (by decide),
    (docLookup_sync_no_internal_error docsExample ["a"] "a").2⟩

instance : DecidableEq (Except RenderError String) := fun x y =>
  match x, y with
  | .error a, .error b =>
    if h : a = b then isTrue (by rw [h])
    else isFalse (by intro hh; injection hh; exact h (by assumption))
  | .ok a, .ok b =>
    if h : a = b then isTrue (by rw [h])
    else isFalse (by intro hh; injection hh; exact h (by assumption))
  | .error _, .ok _ => isFalse (by intro hh; cases hh)
  | .ok _, .error _ => isFalse (by intro hh; cases hh)

/-- C3: the CLI defines no `--all` flag — the token reaches `renderDocs` as an
ordinary slug argument, so `show --all` fails with an unknown-slug error while
showing every known non-draft slug succeeds. -/
theorem show_all_flag_not_implemented :
    renderDocs docsExample ["--all"] = .error (.unknownSlugs ["--all"]) ∧
    (renderDocs docsExample (nonDraftSlugs docsExample)).isOk = true := by
  refine ⟨by decide, by decide⟩

end EffectSolutions
